import Mathlib

/-!
A shallow embedding of `src/communication/src/allocator/process.rs`
(typed inter-thread, intra-process channels) from the
UNSW-database/timely-dataflow repository.

Modelling conventions:
* The process-wide mutex-guarded table `Arc<Mutex<Vec<Box<Any+Send>>>>` is
  modelled by explicit state passing of a `Channels T` value; every call that
  in Rust runs under the lock is modelled as one atomic state transition
  (`Mutex::lock` failure, `expect("mutex error?")`, is not modelled).
* `mpsc::channel()` endpoints are modelled by references (`ChanRef`) into the
  state: each slot of the table owns `peers` FIFO queues (`List T`, enqueue at
  the tail, dequeue at the head), queue `j` of a slot being the queue whose
  `Receiver` was handed to worker `j`'s `Puller`.  Cloning a `Sender` is
  copying a `ChanRef`.
* Type erasure (`Box<Any+Send>` plus `downcast_mut::<..>()`) is modelled by
  tagging each slot with the `TypeId` of the message type it was created for,
  as a `Nat`; `allocate` takes the caller's expected tag and compares.  The
  payload type `T` of the model plays the role of `Message<T>` in the source.
* Rust panics (`expect`, out-of-bounds indexing) abort the call; they are
  modelled as `Except.error` results carrying no endpoints.
-/

namespace TimelyProcess

/-- A reference to one FIFO queue: slot index in the shared table, and the
channel index within that slot (the destination worker's index). Models one
`Sender<T>`/`Receiver<T>` endpoint identity of `mpsc::channel()`. -/
structure ChanRef where
  slot : Nat
  chan : Nat
deriving DecidableEq, Repr

/-- The push half of an intra-process channel: `struct Pusher<T> { target: Sender<T> }`. -/
structure Pusher where
  target : ChanRef
deriving DecidableEq, Repr

/-- The pull half: `struct Puller<T> { current: Option<T>, source: Receiver<T> }`. -/
structure Puller (T : Type) where
  current : Option T
  source : ChanRef
deriving DecidableEq, Repr

/-- One worker's portion of a slot: the tuple `(Vec<Pusher<Message<T>>>, Puller<Message<T>>)`
stored (inside `Option`, for one-shot `take`) in the boxed per-slot vector. -/
structure Entry (T : Type) where
  pushers : List Pusher
  recvr : Puller T
deriving DecidableEq, Repr

/-- One type-erased record of the shared table: the `Box<Any+Send>` holding
`Vec<Option<(Vec<Sender<T>>, Receiver<T>)>>`, together with the queues of the
`peers` channels created for this slot and the `TypeId` tag recovered by
`downcast_mut`. -/
structure Slot (T : Type) where
  tyId : Nat
  queues : List (List T)
  entries : List (Option (Entry T))
deriving DecidableEq, Repr

/-- The shared table `Vec<Box<Any+Send>>` behind the mutex. -/
abbrev Channels (T : Type) := List (Slot T)

/-- An allocator for inter-thread, intra-process communication:
`struct Process { index, peers, allocated, channels }` (the `inner: Thread`
field and the shared `channels` handle are outside the per-instance data; the
table is passed explicitly to each operation). -/
structure Process where
  index : Nat
  peers : Nat
  allocated : Nat
deriving DecidableEq, Repr

/-- `Process::new_vector(count)`: `count` allocator instances, indices
`0 .. count`, all with `allocated = 0`, sharing one freshly created empty
table (`Vec::new()`, i.e. `[]`). -/
def Process.new_vector (count : Nat) : List Process :=
  (List.range count).map (fun index => { index := index, peers := count, allocated := 0 })

/-- The vector `pushers` built by the allocation loop: one `Sender` per
channel created for slot `slotIdx`, `Sender` number `j` feeding queue `j`. -/
def mkPushers (slotIdx n : Nat) : List Pusher :=
  (List.range n).map (fun j => { target := { slot := slotIdx, chan := j } })

/-- The `to_box` vector pushed onto the table by the grow-on-demand branch of
`allocate`: entry `d` is `Some((pushers.clone(), pullers[d]))`, i.e. the full
vector of senders paired with the receiver of channel `d`; together with the
`peers` fresh empty queues and the type tag. -/
def mkSlot (T : Type) (ty slotIdx n : Nat) : Slot T :=
  { tyId := ty
  , queues := List.replicate n []
  , entries := (List.range n).map (fun d =>
      some { pushers := mkPushers slotIdx n
           , recvr := { current := none, source := { slot := slotIdx, chan := d } } }) }

/-- The ways `Process::allocate` can panic. -/
inductive AllocErr where
  /-- an out-of-bounds `channels[self.allocated]` or `vector[self.index]` -/
  | outOfBounds
  /-- `expect("failed to correctly cast channel")` on `downcast_mut` -/
  | typeMismatch
  /-- `expect("channel already consumed")` on `take()` -/
  | alreadyConsumed
deriving DecidableEq, Repr

/-- The grow-on-demand block of `allocate`:
`if self.allocated == channels.len() \x7b ... channels.push(Box::new(to_box)); \x7d` —
the table after the (possible) push of a brand-new slot. -/
def grow (T : Type) (ty : Nat) (p : Process) (channels : Channels T) : Channels T :=
  if p.allocated = channels.length
  then channels ++ [mkSlot T ty channels.length p.peers]
  else channels

/-- `Process::allocate::<T>()`, with `ty` the `TypeId` tag of `T`: under the
table lock, grow the table by one fresh slot if `allocated == channels.len()`;
downcast `channels[self.allocated]`, `take()` the caller's entry
`vector[self.index]`, bump `allocated`, and return the pushers, the puller and
the `None` serialization hint.  Errors model panics, which abort the call. -/
def Process.allocate (T : Type) (ty : Nat) (p : Process) (channels : Channels T) :
    Except AllocErr ((List Pusher × Puller T × Option Nat) × Process × Channels T) :=
  -- let vector = channels[self.allocated].downcast_mut::<..>().expect(..);
  match (grow T ty p channels)[p.allocated]? with
  | none => .error .outOfBounds
  | some slot =>
    if slot.tyId ≠ ty then .error .typeMismatch
    else
      -- let (send, recv) = vector[self.index].take().expect("channel already consumed");
      match slot.entries[p.index]? with
      | none => .error .outOfBounds
      | some none => .error .alreadyConsumed
      | some (some entry) =>
        -- self.allocated += 1; wrap and return
        .ok ((entry.pushers, entry.recvr, none),
             { p with allocated := p.allocated + 1 },
             (grow T ty p channels).set p.allocated
               { slot with entries := slot.entries.set p.index none })

/-- Enqueue `v` at the tail of the queue `r` refers to (no-op on a dangling
reference, which never arises for references handed out by `allocate`). -/
def sendTo (T : Type) (r : ChanRef) (v : T) (channels : Channels T) : Channels T :=
  match channels[r.slot]? with
  | none => channels
  | some slot =>
    match slot.queues[r.chan]? with
    | none => channels
    | some q => channels.set r.slot { slot with queues := slot.queues.set r.chan (q ++ [v]) }

/-- `Pusher::push(&mut self, element: &mut Option<T>)`: `element.take()`
always empties the caller's option; if it held a value, `send` it.  Returns
the new contents of `element` and the new state. -/
def Pusher.push (T : Type) (pshr : Pusher) (element : Option T) (channels : Channels T) :
    Option T × Channels T :=
  match element with
  | some v => (none, sendTo T pshr.target v channels)
  | none => (none, channels)

/-- `Receiver::try_recv().ok()`: a single non-blocking receive attempt.  A
nonempty queue yields `some` head and the shortened queue; an empty (or
absent, modelling disconnected) queue yields `none` with the state unchanged. -/
def tryRecv (T : Type) (r : ChanRef) (channels : Channels T) :
    Option T × Channels T :=
  match channels[r.slot]? with
  | none => (none, channels)
  | some slot =>
    match slot.queues[r.chan]? with
    | none => (none, channels)
    | some [] => (none, channels)
    | some (v :: rest) =>
      (some v, channels.set r.slot { slot with queues := slot.queues.set r.chan rest })

/-- `Puller::pull(&mut self)`: `self.current = self.source.try_recv().ok();`
then return a view of `self.current`.  Modelled as the updated puller plus the
updated state; the observable result is the `current` field. -/
def Puller.pull (T : Type) (pl : Puller T) (channels : Channels T) :
    Puller T × Channels T :=
  let res := tryRecv T pl.source channels
  ({ pl with current := res.1 }, res.2)

/-- The queue a reference points at, if any. -/
def queueAt (T : Type) (r : ChanRef) (channels : Channels T) : Option (List T) :=
  channels[r.slot]?.bind (fun slot => slot.queues[r.chan]?)

deriving instance DecidableEq for Except

/-! ### Basic lemmas about the queue state -/

theorem queueAt_set_other (T : Type) (cs : Channels T) (r r' : ChanRef) (slot : Slot T)
    (newq : List T) (hi : cs[r.slot]? = some slot) (hne : r' ≠ r) :
    queueAt T r' (cs.set r.slot { slot with queues := slot.queues.set r.chan newq })
      = queueAt T r' cs := by
  unfold queueAt
  by_cases hs : r'.slot = r.slot
  · have hc : r.chan ≠ r'.chan := by
      intro hc
      apply hne
      cases r'
      cases r
      simp_all
    rw [hs, List.getElem?_set_eq_of_lt _ (List.getElem?_eq_some.mp hi).1, hi]
    simp [List.getElem?_set_ne hc]
  · rw [List.getElem?_set_ne (fun h => hs h.symm)]

theorem sendTo_queueAt (T : Type) (r : ChanRef) (v : T) (cs : Channels T) (q : List T)
    (h : queueAt T r cs = some q) :
    queueAt T r (sendTo T r v cs) = some (q ++ [v]) ∧
    ∀ r' : ChanRef, r' ≠ r → queueAt T r' (sendTo T r v cs) = queueAt T r' cs := by
  unfold queueAt at h
  cases hs : cs[r.slot]? with
  | none => rw [hs] at h; simp at h
  | some slot =>
    rw [hs] at h
    simp only [Option.some_bind] at h
    have hlt : r.slot < cs.length := (List.getElem?_eq_some.mp hs).1
    have hqlt : r.chan < slot.queues.length := (List.getElem?_eq_some.mp h).1
    have hsend : sendTo T r v cs
        = cs.set r.slot { slot with queues := slot.queues.set r.chan (q ++ [v]) } := by
      unfold sendTo
      rw [hs]
      simp only [h]
    constructor
    · rw [hsend]
      unfold queueAt
      simp only [List.getElem?_set_eq_of_lt _ hlt, Option.some_bind]
      rw [List.getElem?_set_eq_of_lt _ hqlt]
    · intro r' hne
      rw [hsend]
      exact queueAt_set_other T cs r r' slot (q ++ [v]) hs hne

theorem tryRecv_cons (T : Type) (r : ChanRef) (v : T) (rest : List T) (cs : Channels T)
    (h : queueAt T r cs = some (v :: rest)) :
    (tryRecv T r cs).1 = some v ∧
    queueAt T r (tryRecv T r cs).2 = some rest ∧
    ∀ r' : ChanRef, r' ≠ r → queueAt T r' (tryRecv T r cs).2 = queueAt T r' cs := by
  unfold queueAt at h
  cases hs : cs[r.slot]? with
  | none => rw [hs] at h; simp at h
  | some slot =>
    rw [hs] at h
    simp only [Option.some_bind] at h
    have hlt : r.slot < cs.length := (List.getElem?_eq_some.mp hs).1
    have hqlt : r.chan < slot.queues.length := (List.getElem?_eq_some.mp h).1
    have hrecv : tryRecv T r cs
        = (some v, cs.set r.slot { slot with queues := slot.queues.set r.chan rest }) := by
      unfold tryRecv
      rw [hs]
      simp only [h]
    refine ⟨by rw [hrecv], ?_, ?_⟩
    · rw [hrecv]
      unfold queueAt
      simp only [List.getElem?_set_eq_of_lt _ hlt, Option.some_bind]
      rw [List.getElem?_set_eq_of_lt _ hqlt]
    · intro r' hne
      rw [hrecv]
      exact queueAt_set_other T cs r r' slot rest hs hne

theorem tryRecv_empty (T : Type) (r : ChanRef) (cs : Channels T)
    (h : queueAt T r cs = some [] ∨ queueAt T r cs = none) :
    tryRecv T r cs = (none, cs) := by
  unfold queueAt at h
  unfold tryRecv
  cases hs : cs[r.slot]? with
  | none => rfl
  | some slot =>
    rw [hs] at h
    simp only [Option.some_bind] at h
    cases hq : slot.queues[r.chan]? with
    | none => simp only [hq]
    | some ql =>
      rw [hq] at h
      rcases h with h | h
      · cases h
        simp only [hq]
      · cases h

/-! ### Claims about `Pusher::push` and `Puller::pull` -/

/-- C6: each `Puller::pull()` call performs exactly one non-blocking receive
attempt and never waits: if a message is available the returned slot holds
`some` of that message (and exactly that one message is dequeued, no other
queue being touched), and if the queue is empty or closed the slot is set to
`none` with the whole state unchanged — emptiness is returned silently, not
treated as an error. -/
theorem claim6_pull_single_nonblocking_attempt (T : Type) (pl : Puller T) (cs : Channels T)
    (v : T) (q : List T) (r' : ChanRef) (hne : r' ≠ pl.source) :
    (queueAt T pl.source cs = some (v :: q) →
       (Puller.pull T pl cs).1.current = some v ∧
       queueAt T pl.source (Puller.pull T pl cs).2 = some q ∧
       queueAt T r' (Puller.pull T pl cs).2 = queueAt T r' cs) ∧
    ((queueAt T pl.source cs = some [] ∨ queueAt T pl.source cs = none) →
       (Puller.pull T pl cs).1.current = none ∧ (Puller.pull T pl cs).2 = cs) := by
  constructor
  · intro h
    have hr := tryRecv_cons T pl.source v q cs h
    refine ⟨?_, ?_, ?_⟩
    · simp only [Puller.pull]
      rw [hr.1]
    · exact hr.2.1
    · exact hr.2.2 r' hne
  · intro h
    have hr := tryRecv_empty T pl.source cs h
    constructor
    · simp only [Puller.pull]
      rw [hr]
    · simp only [Puller.pull]
      rw [hr]

/-- C7: `Pusher::push(element)`: if `element` holds `some v`, `v` is moved out
(the caller's option is left empty) and enqueued at the tail of the underlying
channel, all other queues untouched; if `element` is `none`, the call enqueues
nothing and changes nothing. -/
theorem claim7_push_moves_value_or_noop (T : Type) (pshr : Pusher) (v : T) (cs : Channels T)
    (q : List T) (r' : ChanRef) (h : queueAt T pshr.target cs = some q)
    (hne : r' ≠ pshr.target) :
    (Pusher.push T pshr (some v) cs).1 = none ∧
    queueAt T pshr.target (Pusher.push T pshr (some v) cs).2 = some (q ++ [v]) ∧
    queueAt T r' (Pusher.push T pshr (some v) cs).2 = queueAt T r' cs ∧
    Pusher.push T pshr none cs = (none, cs) := by
  have hs := sendTo_queueAt T pshr.target v cs q h
  exact ⟨rfl, hs.1, hs.2 r' hne, rfl⟩

/-- C10: `Puller::pull()` unconditionally overwrites the stored slot: the
result never depends on the previously stored value, and even when the
receive attempt finds the queue empty the slot is overwritten with `none`,
discarding any value the caller had not taken out. -/
theorem claim10_pull_discards_previous_value (T : Type) (pl : Puller T) (cs : Channels T)
    (h : queueAt T pl.source cs = some []) :
    (Puller.pull T pl cs).1.current
        = (Puller.pull T { current := none, source := pl.source } cs).1.current ∧
    (Puller.pull T pl cs).1.current = none := by
  refine ⟨rfl, ?_⟩
  simp only [Puller.pull]
  rw [tryRecv_empty T pl.source cs (Or.inl h)]

/-! ### Lemmas characterising `Process::allocate` -/

theorem grow_of_ne (T : Type) (ty : Nat) (p : Process) (cs : Channels T)
    (h : p.allocated ≠ cs.length) : grow T ty p cs = cs := by
  unfold grow
  rw [if_neg h]

theorem grow_of_lt (T : Type) (ty : Nat) (p : Process) (cs : Channels T)
    (h : p.allocated < cs.length) : grow T ty p cs = cs :=
  grow_of_ne T ty p cs (Nat.ne_of_lt h)

theorem grow_of_eq (T : Type) (ty : Nat) (p : Process) (cs : Channels T)
    (h : p.allocated = cs.length) :
    grow T ty p cs = cs ++ [mkSlot T ty cs.length p.peers] := by
  unfold grow
  rw [if_pos h]

/-- Inversion of a successful `allocate`: the slot read, the entry taken, and
the exact shapes of the returned endpoints, updated allocator and table. -/
theorem allocate_ok_inv (T : Type) (ty : Nat) (p : Process) (cs : Channels T)
    (r : List Pusher × Puller T × Option Nat) (p' : Process) (cs' : Channels T)
    (h : Process.allocate T ty p cs = .ok (r, p', cs')) :
    ∃ slot entry,
      (grow T ty p cs)[p.allocated]? = some slot ∧
      slot.tyId = ty ∧
      slot.entries[p.index]? = some (some entry) ∧
      r = (entry.pushers, entry.recvr, none) ∧
      p' = { p with allocated := p.allocated + 1 } ∧
      cs' = (grow T ty p cs).set p.allocated
              { slot with entries := slot.entries.set p.index none } := by
  unfold Process.allocate at h
  split at h
  · exact absurd h (by simp)
  next slot hs =>
    split at h
    · exact absurd h (by simp)
    next ht =>
      rw [not_not] at ht
      split at h
      · exact absurd h (by simp)
      · exact absurd h (by simp)
      next entry he =>
        simp only [Except.ok.injEq, Prod.mk.injEq] at h
        exact ⟨slot, entry, hs, ht, he, h.1.symm, h.2.1.symm, h.2.2.symm⟩

/-- Forward computation of a successful `allocate`. -/
theorem allocate_ok_of (T : Type) (ty : Nat) (p : Process) (cs : Channels T)
    (slot : Slot T) (entry : Entry T)
    (hs : (grow T ty p cs)[p.allocated]? = some slot)
    (ht : slot.tyId = ty)
    (he : slot.entries[p.index]? = some (some entry)) :
    Process.allocate T ty p cs =
      .ok ((entry.pushers, entry.recvr, none),
           { p with allocated := p.allocated + 1 },
           (grow T ty p cs).set p.allocated
             { slot with entries := slot.entries.set p.index none }) := by
  unfold Process.allocate
  rw [hs]
  simp only [he, ht]
  simp

/-- Reading back an already consumed entry. -/
theorem allocate_consumed_of (T : Type) (ty : Nat) (p : Process) (cs : Channels T)
    (slot : Slot T)
    (hs : cs[p.allocated]? = some slot)
    (ht : slot.tyId = ty)
    (he : slot.entries[p.index]? = some none) :
    Process.allocate T ty p cs = .error .alreadyConsumed := by
  have hg : grow T ty p cs = cs :=
    grow_of_lt T ty p cs (List.getElem?_eq_some.mp hs).1
  unfold Process.allocate
  rw [hg, hs]
  simp only [he, ht]
  simp

/-! ### Claims about `Process::allocate` -/

/-- C2: once a (slot, worker-index) entry has been extracted by a successful
`allocate`, re-invoking the take — running `allocate` again with the same
`index` and the same (un-bumped) `allocated` counter against the updated
table — fails fatally with the `"channel already consumed"` panic, and never
returns endpoints. -/
theorem claim2_double_extraction_panics (T : Type) (ty : Nat) (p : Process) (cs : Channels T)
    (r : List Pusher × Puller T × Option Nat) (p' : Process) (cs' : Channels T)
    (h : Process.allocate T ty p cs = .ok (r, p', cs')) :
    Process.allocate T ty p cs' = .error .alreadyConsumed := by
  obtain ⟨slot, entry, hs, ht, he, _, _, hcs'⟩ := allocate_ok_inv T ty p cs r p' cs' h
  have hlt : p.allocated < (grow T ty p cs).length := (List.getElem?_eq_some.mp hs).1
  have hs' : cs'[p.allocated]? =
      some { slot with entries := slot.entries.set p.index none } := by
    rw [hcs']
    exact List.getElem?_set_eq_of_lt _ hlt
  have hidx : p.index < slot.entries.length := (List.getElem?_eq_some.mp he).1
  exact allocate_consumed_of T ty p cs' _ hs' ht (List.getElem?_set_eq_of_lt _ hidx)

/-- C5: if the type-erased record stored at the slot being read was created
for a message type (tag) different from the one of the current call, the
checked downcast fails and `allocate` panics with the
`"failed to correctly cast channel"` error rather than returning endpoints. -/
theorem claim5_downcast_mismatch_panics (T : Type) (ty : Nat) (p : Process) (cs : Channels T)
    (slot : Slot T) (hs : cs[p.allocated]? = some slot) (ht : slot.tyId ≠ ty) :
    Process.allocate T ty p cs = .error .typeMismatch := by
  have hg : grow T ty p cs = cs :=
    grow_of_lt T ty p cs (List.getElem?_eq_some.mp hs).1
  unfold Process.allocate
  rw [hg, hs]
  simp [ht]

/-- The one-shot take applied to a slot: the slot with worker `i`'s entry
replaced by `None` (what `vector[self.index].take()` leaves behind). -/
def takeEntry (T : Type) (s : Slot T) (i : Nat) : Slot T :=
  { s with entries := s.entries.set i none }

/-- C4: each successful `allocate` bumps the caller's `allocated` counter by
exactly one, and a brand-new slot is pushed onto the table exactly when the
caller's counter equals the current table length; otherwise the table keeps
its length and the existing slot at index `allocated` is reused (only its
caller entry being taken). -/
theorem claim4_increment_and_grow_exactly_on_demand (T : Type) (ty : Nat) (p : Process)
    (cs : Channels T) (r : List Pusher × Puller T × Option Nat) (p' : Process)
    (cs' : Channels T) (h : Process.allocate T ty p cs = .ok (r, p', cs')) :
    p'.allocated = p.allocated + 1 ∧
    (cs'.length = cs.length + 1 ↔ p.allocated = cs.length) ∧
    (p.allocated = cs.length →
       cs'[cs.length]? = some (takeEntry T (mkSlot T ty cs.length p.peers) p.index) ∧
       ∀ k, k < cs.length → cs'[k]? = cs[k]?) ∧
    (p.allocated ≠ cs.length →
       cs'.length = cs.length ∧
       (∀ k, k ≠ p.allocated → cs'[k]? = cs[k]?) ∧
       ∃ slot, cs[p.allocated]? = some slot ∧
         cs'[p.allocated]? = some (takeEntry T slot p.index)) := by
  obtain ⟨slot, entry, hs, ht, he, hr, hp', hcs'⟩ := allocate_ok_inv T ty p cs r p' cs' h
  refine ⟨by rw [hp'], ?_, ?_, ?_⟩
  · constructor
    · intro hlen
      by_contra hne
      rw [hcs', grow_of_ne T ty p cs hne, List.length_set] at hlen
      omega
    · intro heq
      rw [hcs', grow_of_eq T ty p cs heq, List.length_set, List.length_append]
      simp
  · intro heq
    have hgrow := grow_of_eq T ty p cs heq
    have hlt : p.allocated < (grow T ty p cs).length := (List.getElem?_eq_some.mp hs).1
    have hslot : slot = mkSlot T ty cs.length p.peers := by
      rw [hgrow, heq] at hs
      rw [List.getElem?_append_right (Nat.le_refl cs.length)] at hs
      simp at hs
      exact hs.symm
    constructor
    · rw [hcs', ← heq, List.getElem?_set_eq_of_lt _ hlt, hslot, heq]
      rfl
    · intro k hk
      rw [hcs', List.getElem?_set_ne (by omega : p.allocated ≠ k), hgrow,
          List.getElem?_append, if_pos hk]
  · intro hne
    have hgrow := grow_of_ne T ty p cs hne
    have hlt : p.allocated < cs.length := by
      have := (List.getElem?_eq_some.mp hs).1
      rw [hgrow] at this
      exact this
    refine ⟨by rw [hcs', hgrow, List.length_set], ?_, slot, ?_, ?_⟩
    · intro k hk
      rw [hcs', hgrow, List.getElem?_set_ne (fun hh => hk hh.symm)]
    · rw [← hgrow]
      exact hs
    · rw [hcs', hgrow, List.getElem?_set_eq_of_lt _ hlt]
      rfl

/-! ### Claim C3: the per-destination record assembled by the grow step -/

/-- Modelled from the spec sentence behind claim C3, read literally:
destination `d` receives a vector of `peers` write-ends, *one per source
worker* — i.e. for each source worker one write end that this source uses to
send to `d`, every one of them feeding `d`'s own queue. -/
def specC3Pushers (slotIdx d n : Nat) : List Pusher :=
  List.replicate n { target := { slot := slotIdx, chan := d } }

/-- The entry the grow step actually assembles for worker `d`. -/
theorem mkSlot_entry (T : Type) (ty sl n d : Nat) (hd : d < n) :
    (mkSlot T ty sl n).entries[d]? =
      some (some { pushers := mkPushers sl n
                 , recvr := { current := none, source := { slot := sl, chan := d } } }) := by
  unfold mkSlot
  simp [List.getElem?_map, List.getElem?_range, hd]

/-- Claim C3 as stated is false on the code: in a fresh two-worker slot the
record for worker 0 does *not* hold one write end per source worker all
feeding worker 0's queue — its second write end feeds worker 1's queue. -/
theorem claim3_counterexample :
    (mkSlot Nat 0 0 2).entries.map (Option.map (fun e => e.pushers)) ≠
      (List.range 2).map (fun d => some (specC3Pushers 0 d 2)) := by
  decide

/-- C3 (amended): the record assembled for worker `d` pairs `d`'s own read
end with a vector of `peers` write-ends indexed by *destination*: its `j`-th
write end feeds exactly the queue that worker `j`'s read end drains. -/
theorem claim3_amended_record_assembly (T : Type) (ty sl n d j : Nat)
    (hd : d < n) (hj : j < n) (ed ej : Entry T)
    (hed : (mkSlot T ty sl n).entries[d]? = some (some ed))
    (hej : (mkSlot T ty sl n).entries[j]? = some (some ej)) :
    ed.pushers.length = n ∧
    ed.recvr.source = { slot := sl, chan := d } ∧
    ed.pushers[j]? = some { target := ej.recvr.source } := by
  rw [mkSlot_entry T ty sl n d hd] at hed
  rw [mkSlot_entry T ty sl n j hj] at hej
  simp only [Option.some.injEq] at hed hej
  subst hed
  subst hej
  refine ⟨?_, rfl, ?_⟩
  · unfold mkPushers
    simp
  · unfold mkPushers
    simp [List.getElem?_map, List.getElem?_range, hj]

theorem claim2_witness :
    Process.allocate Nat 3 { index := 0, peers := 1, allocated := 0 }
        [{ tyId := 3, queues := [[]], entries := [none] }] = .error .alreadyConsumed :=
  claim2_double_extraction_panics Nat 3 { index := 0, peers := 1, allocated := 0 } []
    ([{ target := { slot := 0, chan := 0 } }],
     { current := none, source := { slot := 0, chan := 0 } }, none)
    { index := 0, peers := 1, allocated := 1 }
    [{ tyId := 3, queues := [[]], entries := [none] }]
    (by rfl)

theorem claim5_witness :
    Process.allocate Nat 7 { index := 0, peers := 1, allocated := 0 }
        [mkSlot Nat 4 0 1] = .error .typeMismatch :=
  claim5_downcast_mismatch_panics Nat 7 { index := 0, peers := 1, allocated := 0 }
    [mkSlot Nat 4 0 1] (mkSlot Nat 4 0 1) (by rfl) (by decide)

/-- Concrete instantiation data for the claim C4 witness: worker 0 of 2
performing its first allocation on the empty table. -/
def wP : Process := { index := 0, peers := 2, allocated := 0 }

def wP' : Process := { index := 0, peers := 2, allocated := 1 }

def wCs : Channels Nat := []

def wCs' : Channels Nat := [takeEntry Nat (mkSlot Nat 1 0 2) 0]

def wR : List Pusher × Puller Nat × Option Nat :=
  (mkPushers 0 2, { current := none, source := { slot := 0, chan := 0 } }, none)

theorem claim4_witness :
    wP'.allocated = wP.allocated + 1 ∧
    (wCs'.length = wCs.length + 1 ↔ wP.allocated = wCs.length) ∧
    (wP.allocated = wCs.length →
       wCs'[wCs.length]? = some (takeEntry Nat (mkSlot Nat 1 wCs.length wP.peers) wP.index) ∧
       ∀ k, k < wCs.length → wCs'[k]? = wCs[k]?) ∧
    (wP.allocated ≠ wCs.length →
       wCs'.length = wCs.length ∧
       (∀ k, k ≠ wP.allocated → wCs'[k]? = wCs[k]?) ∧
       ∃ slot, wCs[wP.allocated]? = some slot ∧
         wCs'[wP.allocated]? = some (takeEntry Nat slot wP.index)) :=
  claim4_increment_and_grow_exactly_on_demand Nat 1 wP wCs wR wP' wCs' (by rfl)

/-- The entry the grow step hands worker 0 in a fresh two-worker slot. -/
def wE0 : Entry Nat :=
  { pushers := mkPushers 0 2, recvr := { current := none, source := { slot := 0, chan := 0 } } }

/-- The entry the grow step hands worker 1 in a fresh two-worker slot. -/
def wE1 : Entry Nat :=
  { pushers := mkPushers 0 2, recvr := { current := none, source := { slot := 0, chan := 1 } } }

theorem claim3_witness :
    wE0.pushers.length = 2 ∧
    wE0.recvr.source = { slot := 0, chan := 0 } ∧
    wE0.pushers[1]? = some { target := wE1.recvr.source } :=
  claim3_amended_record_assembly Nat 9 0 2 0 1 (by decide) (by decide) wE0 wE1
    (by rfl) (by rfl)

/-! ### Claim C9: reachable states keep every index of `allocate` in bounds -/

/-- A whole-system state: the allocator instances produced by `new_vector`
(as since updated) together with the shared table. -/
structure SysState (T : Type) where
  procs : List Process
  channels : Channels T

/-- States reachable from `new_vector count` (sharing the fresh empty table)
by any interleaving of successful `allocate` calls with arbitrary type tags. -/
inductive Reachable (T : Type) (count : Nat) : SysState T → Prop where
  | init : Reachable T count { procs := Process.new_vector count, channels := [] }
  | step (s : SysState T) (i ty : Nat) (p : Process)
      (r : List Pusher × Puller T × Option Nat) (p' : Process) (cs' : Channels T) :
      Reachable T count s →
      s.procs[i]? = some p →
      Process.allocate T ty p s.channels = .ok (r, p', cs') →
      Reachable T count { procs := s.procs.set i p', channels := cs' }

/-- The inductive invariant behind claim C9: every allocator instance carries
the construction-time `peers = count` and `index < count`, has consumed at
most the table's length, and every slot of the table holds exactly `count`
entries. -/
def Inv (T : Type) (count : Nat) (s : SysState T) : Prop :=
  (∀ p ∈ s.procs, p.peers = count ∧ p.index < count ∧ p.allocated ≤ s.channels.length) ∧
  (∀ slot ∈ s.channels, slot.entries.length = count)

theorem mkSlot_entries_length (T : Type) (ty sl n : Nat) :
    (mkSlot T ty sl n).entries.length = n := by
  simp [mkSlot]

theorem grow_entries_length (T : Type) (ty : Nat) (p : Process) (cs : Channels T)
    (count : Nat) (hpeers : p.peers = count)
    (hcs : ∀ slot ∈ cs, slot.entries.length = count) :
    ∀ slot ∈ grow T ty p cs, slot.entries.length = count := by
  intro slot hmem
  unfold grow at hmem
  split at hmem
  · rcases List.mem_append.mp hmem with h | h
    · exact hcs slot h
    · rw [List.mem_singleton] at h
      subst h
      rw [mkSlot_entries_length]
      exact hpeers
  · exact hcs slot hmem

theorem grow_length_ge (T : Type) (ty : Nat) (p : Process) (cs : Channels T) :
    cs.length ≤ (grow T ty p cs).length := by
  unfold grow
  split
  · rw [List.length_append]
    omega
  · exact Nat.le_refl _

theorem inv_init (T : Type) (count : Nat) :
    Inv T count { procs := Process.new_vector count, channels := [] } := by
  constructor
  · intro p hp
    obtain ⟨i, hi, rfl⟩ := List.mem_map.mp hp
    exact ⟨rfl, List.mem_range.mp hi, Nat.le_refl 0⟩
  · intro slot hslot
    cases hslot

theorem inv_step (T : Type) (count : Nat) (s : SysState T) (i ty : Nat) (p : Process)
    (r : List Pusher × Puller T × Option Nat) (p' : Process) (cs' : Channels T)
    (hInv : Inv T count s) (hp : s.procs[i]? = some p)
    (hok : Process.allocate T ty p s.channels = .ok (r, p', cs')) :
    Inv T count { procs := s.procs.set i p', channels := cs' } := by
  obtain ⟨slot, entry, hs, ht, he, _, hp', hcs'⟩ :=
    allocate_ok_inv T ty p s.channels r p' cs' hok
  have hpmem : p ∈ s.procs := List.getElem?_mem hp
  obtain ⟨hpeers, hidx, halloc⟩ := hInv.1 p hpmem
  have hlt : p.allocated < (grow T ty p s.channels).length :=
    (List.getElem?_eq_some.mp hs).1
  have hlen : cs'.length = (grow T ty p s.channels).length := by
    rw [hcs', List.length_set]
  have hge : s.channels.length ≤ cs'.length := by
    rw [hlen]
    exact grow_length_ge T ty p s.channels
  constructor
  · intro q hq
    rcases List.mem_or_eq_of_mem_set hq with hmem | rfl
    · obtain ⟨h1, h2, h3⟩ := hInv.1 q hmem
      exact ⟨h1, h2, Nat.le_trans h3 hge⟩
    · rw [hp']
      refine ⟨hpeers, hidx, ?_⟩
      show p.allocated + 1 ≤ cs'.length
      rw [hlen]
      omega
  · intro slot' hslot'
    have hgrow := grow_entries_length T ty p s.channels count hpeers hInv.2
    rw [hcs'] at hslot'
    rcases List.mem_or_eq_of_mem_set hslot' with hmem | rfl
    · exact hgrow slot' hmem
    · show (takeEntry T slot p.index).entries.length = count
      unfold takeEntry
      rw [List.length_set]
      exact hgrow slot (List.getElem?_mem hs)

theorem reachable_inv (T : Type) (count : Nat) (s : SysState T)
    (h : Reachable T count s) : Inv T count s := by
  induction h with
  | init => exact inv_init T count
  | step s i ty p r p' cs' _ hp hok ih => exact inv_step T count s i ty p r p' cs' ih hp hok

/-- Under the invariant, both index operations of `allocate` are in bounds:
the call never hits the out-of-bounds panic (it returns endpoints or one of
the two `expect` panics on the downcast or the take). -/
theorem allocate_no_oob (T : Type) (count : Nat) (cs : Channels T) (p : Process) (ty : Nat)
    (hpeers : p.peers = count) (hidx : p.index < count) (halloc : p.allocated ≤ cs.length)
    (hcs : ∀ slot ∈ cs, slot.entries.length = count) :
    Process.allocate T ty p cs ≠ .error .outOfBounds := by
  have hlt : p.allocated < (grow T ty p cs).length := by
    unfold grow
    split
    · rw [List.length_append]
      simp
      omega
    next hne => omega
  unfold Process.allocate
  split
  next hgs =>
    rw [List.getElem?_eq_none_iff] at hgs
    omega
  next slot hgs =>
    split
    · simp
    · split
      next hee =>
        have hentries : slot.entries.length = count :=
          grow_entries_length T ty p cs count hpeers hcs slot (List.getElem?_mem hgs)
        rw [List.getElem?_eq_none_iff] at hee
        omega
      · simp
      · simp

/-- C9: in every state reachable from `new_vector count` by `allocate` calls,
each allocator's `allocated` counter is at most the shared table's length and
every table slot holds exactly `count` entries; hence the indexing operations
`channels[self.allocated]` and `vector[self.index]` inside `allocate` are
always in bounds — a further `allocate` call by any of the allocators never
fails with an out-of-bounds access. -/
theorem claim9_reachable_states_in_bounds (T : Type) (count : Nat) (s : SysState T)
    (h : Reachable T count s) (i ty : Nat) (p : Process) (hp : s.procs[i]? = some p) :
    p.allocated ≤ s.channels.length ∧
    (∀ slot ∈ s.channels, slot.entries.length = count) ∧
    Process.allocate T ty p s.channels ≠ .error .outOfBounds := by
  have hInv := reachable_inv T count s h
  obtain ⟨hpeers, hidx, halloc⟩ := hInv.1 p (List.getElem?_mem hp)
  exact ⟨halloc, hInv.2,
    allocate_no_oob T count s.channels p ty hpeers hidx halloc hInv.2⟩

theorem claim9_witness :
    ({ index := 0, peers := 1, allocated := 0 } : Process).allocated
        ≤ ([] : Channels Nat).length ∧
    (∀ slot ∈ ([] : Channels Nat), slot.entries.length = 1) ∧
    Process.allocate Nat 0 { index := 0, peers := 1, allocated := 0 } ([] : Channels Nat)
        ≠ .error .outOfBounds :=
  claim9_reachable_states_in_bounds Nat 1
    { procs := Process.new_vector 1, channels := [] } Reachable.init 0 0
    { index := 0, peers := 1, allocated := 0 } (by rfl)

/-! ### Claim C1: one allocation round over all workers, in any order -/

/-- One worker's `allocate` call inside a shared run: look the worker up,
run `allocate`, thread the updated instance and table through. -/
def allocStep (T : Type) (ty i : Nat) (st : List Process × Channels T) :
    Except AllocErr (List Pusher × Puller T × Option Nat) × (List Process × Channels T) :=
  match st.1[i]? with
  | none => (.error .outOfBounds, st)
  | some p =>
    match Process.allocate T ty p st.2 with
    | .error e => (.error e, st)
    | .ok (r, p', cs') => (.ok r, (st.1.set i p', cs'))

/-- Run one `allocate` call per listed worker, in the listed order, recording
each worker's result. -/
def runAll (T : Type) (ty : Nat) (order : List Nat) (st : List Process × Channels T) :
    List (Nat × Except AllocErr (List Pusher × Puller T × Option Nat))
      × (List Process × Channels T) :=
  match order with
  | [] => ([], st)
  | i :: rest =>
    let step := allocStep T ty i st
    let next := runAll T ty rest step.2
    ((i, step.1) :: next.1, next.2)

/-- The allocator instances after the workers listed in `done` have each made
their single `allocate` call of the round. -/
def procsAfter (n : Nat) (done : List Nat) : List Process :=
  (List.range n).map (fun i =>
    { index := i, peers := n, allocated := if i ∈ done then 1 else 0 })

/-- The record the round's single slot holds for worker `d`. -/
def entryFor (T : Type) (n d : Nat) : Entry T :=
  { pushers := mkPushers 0 n
  , recvr := { current := none, source := { slot := 0, chan := d } } }

/-- The round's slot 0 after the workers in `done` extracted their entries. -/
def slotTaken (T : Type) (ty n : Nat) (done : List Nat) : Slot T :=
  { tyId := ty
  , queues := List.replicate n []
  , entries := (List.range n).map (fun d =>
      if d ∈ done then none else some (entryFor T n d)) }

/-- The table after the workers in `done` made their call of the round. -/
def chansAfter (T : Type) (ty n : Nat) (done : List Nat) : Channels T :=
  if done = [] then [] else [slotTaken T ty n done]

theorem set_map_range {α : Type} (n w : Nat) (f : Nat → α) (a : α) (hw : w < n) :
    ((List.range n).map f).set w a
      = (List.range n).map (fun i => if i = w then a else f i) := by
  apply List.ext_getElem?
  intro k
  by_cases hk : k < n
  · by_cases hkw : k = w
    · subst hkw
      rw [List.getElem?_set_eq_of_lt _ (by simpa using hk)]
      rw [List.getElem?_map, List.getElem?_range hk]
      simp
    · rw [List.getElem?_set_ne (fun h => hkw h.symm)]
      rw [List.getElem?_map, List.getElem?_map, List.getElem?_range hk]
      simp [hkw]
  · rw [List.getElem?_eq_none (by simp; omega), List.getElem?_eq_none (by simp; omega)]

theorem procsAfter_set (n : Nat) (done : List Nat) (w : Nat) (hw : w < n) :
    (procsAfter n done).set w { index := w, peers := n, allocated := 1 }
      = procsAfter n (w :: done) := by
  unfold procsAfter
  rw [set_map_range n w _ _ hw]
  apply List.map_congr_left
  intro i hi
  by_cases hiw : i = w
  · subst hiw
    simp
  · simp [hiw, List.mem_cons]

theorem slotTaken_take (T : Type) (ty n : Nat) (done : List Nat) (w : Nat) (hw : w < n) :
    takeEntry T (slotTaken T ty n done) w = slotTaken T ty n (w :: done) := by
  unfold takeEntry slotTaken
  simp only [Slot.mk.injEq, true_and]
  rw [set_map_range n w _ _ hw]
  apply List.map_congr_left
  intro i hi
  by_cases hiw : i = w
  · subst hiw
    simp
  · simp [hiw, List.mem_cons]

theorem procsAfter_getElem (n : Nat) (done : List Nat) (w : Nat) (hw : w < n)
    (hwd : w ∉ done) :
    (procsAfter n done)[w]? = some { index := w, peers := n, allocated := 0 } := by
  unfold procsAfter
  rw [List.getElem?_map, List.getElem?_range hw]
  simp [hwd]

theorem slotTaken_entry (T : Type) (ty n : Nat) (done : List Nat) (w : Nat) (hw : w < n)
    (hwd : w ∉ done) :
    (slotTaken T ty n done).entries[w]? = some (some (entryFor T n w)) := by
  unfold slotTaken
  rw [List.getElem?_map, List.getElem?_range hw]
  simp [hwd]

theorem allocStep_ok (T : Type) (ty i : Nat) (ps : List Process) (cs : Channels T)
    (p : Process) (r : List Pusher × Puller T × Option Nat) (p' : Process)
    (cs' : Channels T) (hp : ps[i]? = some p)
    (hok : Process.allocate T ty p cs = .ok (r, p', cs')) :
    allocStep T ty i (ps, cs) = (.ok r, (ps.set i p', cs')) := by
  simp only [allocStep, hp, hok]

/-- One round step: a worker `w` that has not yet allocated in this round
performs its call; it receives the full pusher vector, its own puller and the
`None` hint, and the state moves to `done := w :: done`. -/
theorem allocStep_round (T : Type) (ty n : Nat) (done : List Nat) (w : Nat)
    (hw : w < n) (hwd : w ∉ done) :
    allocStep T ty w (procsAfter n done, chansAfter T ty n done) =
      (.ok (mkPushers 0 n,
            { current := none, source := { slot := 0, chan := w } }, none),
       (procsAfter n (w :: done), chansAfter T ty n (w :: done))) := by
  have hp : (procsAfter n done)[w]? = some { index := w, peers := n, allocated := 0 } :=
    procsAfter_getElem n done w hw hwd
  by_cases hdone : done = []
  · subst hdone
    have hmk : mkSlot T ty 0 n = slotTaken T ty n [] := by
      unfold mkSlot slotTaken entryFor
      simp
    have hgrow : grow T ty { index := w, peers := n, allocated := 0 }
        (chansAfter T ty n []) = [slotTaken T ty n []] := by
      simp [chansAfter, grow, hmk]
    have hok := allocate_ok_of T ty { index := w, peers := n, allocated := 0 }
      (chansAfter T ty n []) (slotTaken T ty n []) (entryFor T n w)
      (by rw [hgrow]; rfl) rfl (slotTaken_entry T ty n [] w hw (by simp))
    rw [allocStep_ok T ty w (procsAfter n []) (chansAfter T ty n [])
        { index := w, peers := n, allocated := 0 } _ _ _ hp hok]
    have hset : ([slotTaken T ty n []].set 0 (takeEntry T (slotTaken T ty n []) w)
          : Channels T) = chansAfter T ty n [w] := by
      unfold chansAfter
      rw [if_neg (by simp)]
      rw [slotTaken_take T ty n [] w hw]
      rfl
    rw [← hset, ← procsAfter_set n [] w hw]
    rw [hgrow]
    rfl
  · have hchans : chansAfter T ty n done = [slotTaken T ty n done] := by
      unfold chansAfter
      rw [if_neg hdone]
    have hgrow : grow T ty { index := w, peers := n, allocated := 0 }
        (chansAfter T ty n done) = [slotTaken T ty n done] := by
      unfold grow
      rw [hchans]
      rw [if_neg (by simp)]
    have hok := allocate_ok_of T ty { index := w, peers := n, allocated := 0 }
      (chansAfter T ty n done) (slotTaken T ty n done) (entryFor T n w)
      (by rw [hgrow]; rfl) rfl (slotTaken_entry T ty n done w hw hwd)
    rw [allocStep_ok T ty w (procsAfter n done) (chansAfter T ty n done)
        { index := w, peers := n, allocated := 0 } _ _ _ hp hok]
    have hset : ([slotTaken T ty n done].set 0 (takeEntry T (slotTaken T ty n done) w)
          : Channels T) = chansAfter T ty n (w :: done) := by
      unfold chansAfter
      rw [if_neg (by simp)]
      rw [slotTaken_take T ty n done w hw]
      rfl
    rw [← hset, ← procsAfter_set n done w hw]
    rw [hgrow]
    rfl

/-- Running the remaining workers of a round: every one of them gets the full
pusher vector, its own puller and the `None` hint, and the state ends with
all of them marked done. -/
theorem runAll_round (T : Type) (ty n : Nat) (todo : List Nat) :
    ∀ done : List Nat, (done ++ todo).Nodup → (∀ x ∈ done ++ todo, x < n) →
    runAll T ty todo (procsAfter n done, chansAfter T ty n done) =
      (todo.map (fun w =>
          (w, Except.ok (mkPushers 0 n,
                ({ current := none, source := { slot := 0, chan := w } } : Puller T),
                (none : Option Nat)))),
       (procsAfter n (todo.reverse ++ done), chansAfter T ty n (todo.reverse ++ done))) := by
  induction todo with
  | nil =>
    intro done hnd hall
    simp [runAll]
  | cons w rest ih =>
    intro done hnd hall
    have hw : w < n := hall w (by simp)
    have hwdone : w ∉ done := by
      intro hmem
      exact (List.nodup_append.mp hnd).2.2 hmem (by simp)
    have hnd' : ((w :: done) ++ rest).Nodup := by
      rw [List.cons_append]
      exact (List.perm_middle.nodup_iff).mp hnd
    have hall' : ∀ x ∈ (w :: done) ++ rest, x < n := by
      intro x hx
      apply hall x
      simp only [List.mem_append, List.mem_cons] at hx ⊢
      tauto
    show ((w, (allocStep T ty w (procsAfter n done, chansAfter T ty n done)).1) ::
           (runAll T ty rest
             (allocStep T ty w (procsAfter n done, chansAfter T ty n done)).2).1,
          (runAll T ty rest
             (allocStep T ty w (procsAfter n done, chansAfter T ty n done)).2).2) = _
    rw [allocStep_round T ty n done w hw hwdone]
    rw [ih (w :: done) hnd' hall']
    rw [List.map_cons, List.reverse_cons, List.append_assoc]
    rfl

/-- C1: for every worker count `n ≥ 1`, start from `new_vector n` (all
allocators sharing the fresh empty table) and let every worker call
`allocate` exactly once, in an arbitrary relative order.  Then every worker
`w < n` receives exactly the vector of `n` pushers indexed by destination
worker (including itself), exactly one puller (reading worker `w`'s own
queue of the round's slot), and an always-`None` format hint; and a value
pushed on the pusher for destination `d` is observed by worker `d`'s puller
on its next poll. -/
theorem claim1_one_round_mesh_and_delivery (T : Type) (n ty : Nat) (order : List Nat)
    (v : T) (d w : Nat) (hperm : order.Perm (List.range n)) (hw : w < n) (hd : d < n) :
    ((w, Except.ok (mkPushers 0 n,
        ({ current := none, source := { slot := 0, chan := w } } : Puller T),
        (none : Option Nat)))
      ∈ (runAll T ty order (Process.new_vector n, ([] : Channels T))).1) ∧
    (mkPushers 0 n).length = n ∧
    (mkPushers 0 n)[d]? = some { target := { slot := 0, chan := d } } ∧
    ((Puller.pull T { current := none, source := { slot := 0, chan := d } }
        (Pusher.push T { target := { slot := 0, chan := d } } (some v)
          (runAll T ty order (Process.new_vector n, ([] : Channels T))).2.2).2).1.current
      = some v) := by
  have hnd : ([] ++ order : List Nat).Nodup := by
    simp only [List.nil_append]
    exact hperm.nodup_iff.mpr (List.nodup_range n)
  have hall : ∀ x ∈ ([] ++ order : List Nat), x < n := by
    intro x hx
    simp only [List.nil_append] at hx
    exact List.mem_range.mp (hperm.mem_iff.mp hx)
  have h0 : procsAfter n [] = Process.new_vector n := by
    unfold procsAfter Process.new_vector
    simp
  have hc0 : chansAfter T ty n [] = ([] : Channels T) := rfl
  have hrun := runAll_round T ty n order [] hnd hall
  rw [h0, hc0] at hrun
  have horder : order ≠ [] := by
    intro hnil
    have := hperm.length_eq
    rw [hnil] at this
    simp at this
    have : w < 0 := by omega
    omega
  have hfinal : (runAll T ty order (Process.new_vector n, ([] : Channels T))).2.2
      = [slotTaken T ty n (order.reverse ++ [])] := by
    rw [hrun]
    show chansAfter T ty n (order.reverse ++ []) = _
    unfold chansAfter
    rw [if_neg (by simp [horder])]
  refine ⟨?_, by simp [mkPushers], ?_, ?_⟩
  · rw [hrun]
    exact List.mem_map_of_mem _ (hperm.mem_iff.mpr (List.mem_range.mpr hw))
  · unfold mkPushers
    rw [List.getElem?_map, List.getElem?_range hd]
    rfl
  · have hq : queueAt T { slot := 0, chan := d }
        (runAll T ty order (Process.new_vector n, ([] : Channels T))).2.2 = some [] := by
      rw [hfinal]
      unfold queueAt slotTaken
      simp [List.getElem?_replicate, hd]
    have hpush := sendTo_queueAt T { slot := 0, chan := d } v _ [] hq
    have hpull := tryRecv_cons T { slot := 0, chan := d } v [] _ hpush.1
    exact hpull.1

/-- The concrete scenario of the spec: three workers, worker order 2, 0, 1;
worker 0 then pushes `42` to destination 2, and worker 2's first poll yields
`some 42`. -/
theorem claim1_witness :
    ((0, Except.ok (mkPushers 0 3,
        ({ current := none, source := { slot := 0, chan := 0 } } : Puller Nat),
        (none : Option Nat)))
      ∈ (runAll Nat 0 [2, 0, 1] (Process.new_vector 3, ([] : Channels Nat))).1) ∧
    (mkPushers 0 3).length = 3 ∧
    (mkPushers 0 3)[2]? = some { target := { slot := 0, chan := 2 } } ∧
    ((Puller.pull Nat { current := none, source := { slot := 0, chan := 2 } }
        (Pusher.push Nat { target := { slot := 0, chan := 2 } } (some 42)
          (runAll Nat 0 [2, 0, 1] (Process.new_vector 3, ([] : Channels Nat))).2.2).2).1.current
      = some 42) :=
  claim1_one_round_mesh_and_delivery Nat 3 0 [2, 0, 1] 42 2 0 (by decide)
    (by decide) (by decide)

/-! ### Claim C8: FIFO delivery on a fixed edge -/

/-- C8: for a fixed edge, messages are delivered in push order: starting from
an empty queue, pushing `a` then `b` through the same pusher makes the
destination's puller observe `a` on its first poll and `b` on the next. -/
theorem claim8_fifo_per_edge (T : Type) (pshr : Pusher) (a b : T) (cs : Channels T)
    (h : queueAt T pshr.target cs = some []) :
    (Puller.pull T { current := none, source := pshr.target }
        (Pusher.push T pshr (some b)
          (Pusher.push T pshr (some a) cs).2).2).1.current = some a ∧
    (Puller.pull T
        (Puller.pull T { current := none, source := pshr.target }
          (Pusher.push T pshr (some b)
            (Pusher.push T pshr (some a) cs).2).2).1
        (Puller.pull T { current := none, source := pshr.target }
          (Pusher.push T pshr (some b)
            (Pusher.push T pshr (some a) cs).2).2).2).1.current = some b := by
  have h1 : queueAt T pshr.target (sendTo T pshr.target a cs) = some [a] := by
    have := (sendTo_queueAt T pshr.target a cs [] h).1
    simpa using this
  have h2 : queueAt T pshr.target
      (sendTo T pshr.target b (sendTo T pshr.target a cs)) = some (a :: [b]) := by
    have := (sendTo_queueAt T pshr.target b (sendTo T pshr.target a cs) [a] h1).1
    simpa using this
  have h3 := tryRecv_cons T pshr.target a [b] _ h2
  have h4 := tryRecv_cons T pshr.target b [] _ h3.2.1
  exact ⟨h3.1, h4.1⟩

/-- A concrete two-worker table with one freshly created slot (both queues
empty), used to instantiate the hypotheses of the claims above. -/
def csW : Channels Nat := [mkSlot Nat 5 0 2]

/-- `csW` after the value `42` has been sent to worker 1's queue. -/
def csW1 : Channels Nat := sendTo Nat { slot := 0, chan := 1 } 42 csW

theorem claim6_witness :
    (queueAt Nat { slot := 0, chan := 1 } csW1 = some (42 :: []) →
       (Puller.pull Nat { current := none, source := { slot := 0, chan := 1 } } csW1).1.current
           = some 42 ∧
       queueAt Nat { slot := 0, chan := 1 }
           (Puller.pull Nat { current := none, source := { slot := 0, chan := 1 } } csW1).2
           = some [] ∧
       queueAt Nat { slot := 0, chan := 0 }
           (Puller.pull Nat { current := none, source := { slot := 0, chan := 1 } } csW1).2
           = queueAt Nat { slot := 0, chan := 0 } csW1) ∧
    ((queueAt Nat { slot := 0, chan := 1 } csW1 = some [] ∨
        queueAt Nat { slot := 0, chan := 1 } csW1 = none) →
       (Puller.pull Nat { current := none, source := { slot := 0, chan := 1 } } csW1).1.current
           = none ∧
       (Puller.pull Nat { current := none, source := { slot := 0, chan := 1 } } csW1).2 = csW1) :=
  claim6_pull_single_nonblocking_attempt Nat
    { current := none, source := { slot := 0, chan := 1 } } csW1 42 []
    { slot := 0, chan := 0 } (by decide)

theorem claim7_witness :
    (Pusher.push Nat { target := { slot := 0, chan := 1 } } (some 7) csW).1 = none ∧
    queueAt Nat { slot := 0, chan := 1 }
        (Pusher.push Nat { target := { slot := 0, chan := 1 } } (some 7) csW).2
        = some ([] ++ [7]) ∧
    queueAt Nat { slot := 0, chan := 0 }
        (Pusher.push Nat { target := { slot := 0, chan := 1 } } (some 7) csW).2
        = queueAt Nat { slot := 0, chan := 0 } csW ∧
    Pusher.push Nat { target := { slot := 0, chan := 1 } } none csW = (none, csW) :=
  claim7_push_moves_value_or_noop Nat { target := { slot := 0, chan := 1 } } 7 csW []
    { slot := 0, chan := 0 } (by rfl) (by decide)

theorem claim10_witness :
    (Puller.pull Nat { current := some 9, source := { slot := 0, chan := 0 } } csW).1.current
        = (Puller.pull Nat { current := none, source := { slot := 0, chan := 0 } } csW).1.current ∧
    (Puller.pull Nat { current := some 9, source := { slot := 0, chan := 0 } } csW).1.current
        = none :=
  claim10_pull_discards_previous_value Nat
    { current := some 9, source := { slot := 0, chan := 0 } } csW (by rfl)

theorem claim8_witness :
    (Puller.pull Nat { current := none, source := { slot := 0, chan := 0 } }
        (Pusher.push Nat { target := { slot := 0, chan := 0 } } (some 2)
          (Pusher.push Nat { target := { slot := 0, chan := 0 } } (some 1) csW).2).2).1.current
      = some 1 ∧
    (Puller.pull Nat
        (Puller.pull Nat { current := none, source := { slot := 0, chan := 0 } }
          (Pusher.push Nat { target := { slot := 0, chan := 0 } } (some 2)
            (Pusher.push Nat { target := { slot := 0, chan := 0 } } (some 1) csW).2).2).1
        (Puller.pull Nat { current := none, source := { slot := 0, chan := 0 } }
          (Pusher.push Nat { target := { slot := 0, chan := 0 } } (some 2)
            (Pusher.push Nat { target := { slot := 0, chan := 0 } } (some 1) csW).2).2).2).1.current
      = some 2 :=
  claim8_fifo_per_edge Nat { target := { slot := 0, chan := 0 } } 1 2 csW (by rfl)

end TimelyProcess
